import Mathlib

/-!
Verification of the mixtura concurrency core, task dispatcher and search cache.

This file is a shallow embedding of the relevant parts of the source:
  - src/mixtura/core/concurrency.py  (class ProviderLock)
  - src/mixtura/core/orchestrator.py (Orchestrator.run_parallel_tasks and its
    worker functions such as _install_provider / _upgrade_provider)
  - src/mixtura/cache.py             (class SearchCache)
  - src/mixtura/core/package.py      (dataclass Package)
together with theorems settling the specification claims about them.

Modelling conventions:
  - Python dicts are association lists with unique keys; alGet / alSet / alDel
    mirror lookup, replace-or-insert and key deletion.
  - Python integers are Lean Int where they can go negative (the lock counters),
    and Nat where the code keeps them positive (per-thread reader hold counts,
    which are created at 1, incremented, and deleted as soon as they reach 0).
  - Blocking calls are modelled as step functions returning Option: `none`
    means the call would block in the given state, `some s'` means it completes
    at once and the state becomes s'.
  - Raising an exception is modelled with Except: `.error msg` means the call
    raises and produces no new state (the object is left unchanged, since in
    the source the raise happens before any mutation).
  - Time is an abstract Int instant; file I/O on the cache store is modelled as
    reading and replacing a `Store` value, with writes assumed to succeed.
-/

/-! ### Association lists (model of Python dict) -/

/-- Dictionary lookup: first binding of the key, `none` when absent. -/
def alGet {κ β : Type} [DecidableEq κ] : List (κ × β) → κ → Option β
  | [], _ => none
  | (k, v) :: rest, key => if k = key then some v else alGet rest key

/-- Dictionary write `d[key] = v`: replaces the binding in place when the key
is present, appends a new binding otherwise (Python dict insertion order). -/
def alSet {κ β : Type} [DecidableEq κ] : List (κ × β) → κ → β → List (κ × β)
  | [], key, v => [(key, v)]
  | (k, w) :: rest, key, v =>
    if k = key then (key, v) :: rest else (k, w) :: alSet rest key v

/-- Dictionary deletion `del d[key]`: removes the first binding of the key. -/
def alDel {κ β : Type} [DecidableEq κ] : List (κ × β) → κ → List (κ × β)
  | [], _ => []
  | (k, w) :: rest, key => if k = key then rest else (k, w) :: alDel rest key

theorem alGet_eq_none_iff {κ β : Type} [DecidableEq κ] (m : List (κ × β)) (key : κ) :
    alGet m key = none ↔ key ∉ m.map Prod.fst := by
  induction m with
  | nil => simp [alGet]
  | cons p rest ih =>
    obtain ⟨k, v⟩ := p
    by_cases h : k = key
    · subst h; simp [alGet]
    · simp only [alGet, if_neg h, List.map_cons, List.mem_cons, ih]
      constructor
      · intro hn hor
        rcases hor with h1 | h2
        · exact h h1.symm
        · exact hn h2
      · intro hn h2
        exact hn (Or.inr h2)

theorem alGet_alSet_self {κ β : Type} [DecidableEq κ] (m : List (κ × β)) (key : κ) (v : β) :
    alGet (alSet m key v) key = some v := by
  induction m with
  | nil => simp [alGet, alSet]
  | cons p rest ih =>
    obtain ⟨k, w⟩ := p
    by_cases h : k = key
    · subst h; simp [alGet, alSet]
    · simp [alGet, alSet, h, ih]

theorem alGet_alSet_ne {κ β : Type} [DecidableEq κ] (m : List (κ × β)) (key t : κ) (v : β)
    (h : t ≠ key) : alGet (alSet m key v) t = alGet m t := by
  have hks : ¬ key = t := fun hh => h hh.symm
  induction m with
  | nil => simp [alGet, alSet, hks]
  | cons p rest ih =>
    obtain ⟨k, w⟩ := p
    by_cases hk : k = key
    · subst hk; simp [alGet, alSet, hks]
    · by_cases ht : k = t
      · subst ht; simp [alGet, alSet, hk]
      · simp [alGet, alSet, hk, ht, ih]

theorem alSet_of_not_mem {κ β : Type} [DecidableEq κ] (m : List (κ × β)) (key : κ) (v : β)
    (h : alGet m key = none) : alSet m key v = m ++ [(key, v)] := by
  induction m with
  | nil => simp [alSet]
  | cons p rest ih =>
    obtain ⟨k, w⟩ := p
    by_cases hk : k = key
    · subst hk; simp [alGet] at h
    · simp [alGet, hk] at h
      simp [alSet, hk, ih h]

theorem alSet_keys_of_mem {κ β : Type} [DecidableEq κ] (m : List (κ × β)) (key : κ) (v n : β)
    (h : alGet m key = some n) :
    (alSet m key v).map Prod.fst = m.map Prod.fst := by
  induction m with
  | nil => simp [alGet] at h
  | cons p rest ih =>
    obtain ⟨k, w⟩ := p
    by_cases hk : k = key
    · subst hk; simp [alSet]
    · simp [alGet, hk] at h
      simp [alSet, hk, ih h]

theorem alSet_length_of_mem {κ β : Type} [DecidableEq κ] (m : List (κ × β)) (key : κ) (v n : β)
    (h : alGet m key = some n) : (alSet m key v).length = m.length := by
  have := alSet_keys_of_mem m key v n h
  have h1 := congrArg List.length this
  simpa using h1

theorem alDel_sublist {κ β : Type} [DecidableEq κ] (m : List (κ × β)) (key : κ) :
    (alDel m key).Sublist m := by
  induction m with
  | nil => simp [alDel]
  | cons p rest ih =>
    obtain ⟨k, w⟩ := p
    by_cases hk : k = key
    · simp only [alDel, if_pos hk]
      exact List.sublist_cons_self (k, w) rest
    · simp only [alDel, if_neg hk]
      exact List.Sublist.cons₂ (k, w) ih

theorem alDel_length {κ β : Type} [DecidableEq κ] (m : List (κ × β)) (key : κ) (v : β)
    (h : alGet m key = some v) : (alDel m key).length + 1 = m.length := by
  induction m with
  | nil => simp [alGet] at h
  | cons p rest ih =>
    obtain ⟨k, w⟩ := p
    by_cases hk : k = key
    · simp [alDel, hk]
    · simp [alGet, hk] at h
      simp [alDel, hk, ih h]

theorem alGet_alDel_self {κ β : Type} [DecidableEq κ] (m : List (κ × β)) (key : κ)
    (hnd : (m.map Prod.fst).Nodup) : alGet (alDel m key) key = none := by
  induction m with
  | nil => simp [alDel, alGet]
  | cons p rest ih =>
    obtain ⟨k, w⟩ := p
    simp only [List.map_cons, List.nodup_cons] at hnd
    by_cases hk : k = key
    · subst hk
      simp only [alDel, if_pos rfl]
      rw [alGet_eq_none_iff]
      exact hnd.1
    · simp [alDel, alGet, hk, ih hnd.2]

theorem alGet_alDel_of_none {κ β : Type} [DecidableEq κ] (m : List (κ × β)) (key q : κ)
    (h : alGet m q = none) : alGet (alDel m key) q = none := by
  induction m with
  | nil => simp [alDel, alGet]
  | cons p rest ih =>
    obtain ⟨k, w⟩ := p
    by_cases hq : k = q
    · subst hq; simp [alGet] at h
    · simp only [alGet, if_neg hq] at h
      by_cases hk : k = key
      · simpa [alDel, hk] using h
      · simp [alDel, alGet, hk, hq, ih h]

theorem alGet_some_mem {κ β : Type} [DecidableEq κ] (m : List (κ × β)) (key : κ) (v : β)
    (h : alGet m key = some v) : (key, v) ∈ m := by
  induction m with
  | nil => simp [alGet] at h
  | cons p rest ih =>
    obtain ⟨k, w⟩ := p
    by_cases hk : k = key
    · subst hk
      simp [alGet] at h
      subst h; exact List.mem_cons_self _ _
    · simp only [alGet, if_neg hk] at h
      exact List.mem_cons_of_mem _ (ih h)

/-! ### The reader-writer lock (class ProviderLock, concurrency.py)

The mutable state guarded by the lock's internal mutex.  Each public method of
the class becomes a step function on this state; a method call is one atomic
step (the source only touches the counters while holding `self._lock`, and a
call that completes leaves the condition-variable wait loop with its guard
false, which is exactly the `some` case of the step function).  -/

structure LockState where
  active_readers : Int
  active_writers : Int
  waiting_writers : Int
  reader_threads : List (Nat × Nat)
deriving DecidableEq

namespace ProviderLock

/-- The state built by ProviderLock.__init__. -/
def initial_state : LockState := ⟨0, 0, 0, []⟩

/-- acquire_shared (concurrency.py lines 39-55).  If the thread is already a
reader it just increments its hold count and returns at once; otherwise the
call blocks (`none`) while there is an active writer or a waiting writer, and
when unblocked increments active_readers and records one hold for the thread. -/
def acquire_shared (tid : Nat) (s : LockState) : Option LockState :=
  match alGet s.reader_threads tid with
  | some n => some { s with reader_threads := alSet s.reader_threads tid (n + 1) }
  | none =>
    if s.active_writers > 0 ∨ s.waiting_writers > 0 then none
    else some { s with
      active_readers := s.active_readers + 1
      reader_threads := alSet s.reader_threads tid 1 }

/-- release_shared (concurrency.py lines 57-69).  Raises RuntimeError when the
thread holds no shared lock (before touching any state); otherwise decrements
the thread's hold count, and when it reaches 0 removes the thread and
decrements active_readers. -/
def release_shared (tid : Nat) (s : LockState) : Except String LockState :=
  match alGet s.reader_threads tid with
  | none => Except.error "Thread does not hold shared lock"
  | some n =>
    if n - 1 = 0 then
      Except.ok { s with
        reader_threads := alDel s.reader_threads tid
        active_readers := s.active_readers - 1 }
    else
      Except.ok { s with reader_threads := alSet s.reader_threads tid (n - 1) }

/-- acquire_exclusive (concurrency.py lines 71-86) viewed as one completed
call: it blocks while there are active readers or an active writer, and when
unblocked sets the writer flag.  The waiting_writers register is incremented on
entry and decremented in the finally block, so a completed call leaves it
unchanged; the mid-wait registration is modelled by the separate phases
writer_enqueue / writer_acquire below. -/
def acquire_exclusive (s : LockState) : Option LockState :=
  if s.active_readers > 0 ∨ s.active_writers > 0 then none
  else some { s with active_writers := s.active_writers + 1 }

/-- First phase of acquire_exclusive: `self._waiting_writers += 1`. -/
def writer_enqueue (s : LockState) : LockState :=
  { s with waiting_writers := s.waiting_writers + 1 }

/-- Second phase of acquire_exclusive: the wait loop exits when there is no
active reader and no active writer, then the writer flag is set and the
waiting registration of this writer is cleared. -/
def writer_acquire (s : LockState) : Option LockState :=
  if s.active_readers > 0 ∨ s.active_writers > 0 then none
  else some { s with
    active_writers := s.active_writers + 1
    waiting_writers := s.waiting_writers - 1 }

/-- release_exclusive (concurrency.py lines 88-93): decrements the writer flag
unconditionally (the source performs no check that the caller holds the
exclusive lock) and wakes all waiters. -/
def release_exclusive (s : LockState) : LockState :=
  { s with active_writers := s.active_writers - 1 }

end ProviderLock

/-! ### Step relations over the lock state

A step is one completed, state-changing call into the lock.  Blocked calls and
the raising branch of release_shared change no state and are therefore not
steps.  writer_acquire is the completion of an acquire_exclusive call, so it
only fires for a writer that previously registered itself as waiting (hence
the side condition 0 < waiting_writers).  -/

/-- One state-changing call on the lock, exactly as the source implements it;
in particular release_exclusive may fire in any state, since the source
decrements the writer flag without checking that the caller holds it. -/
inductive LockStep : LockState → LockState → Prop
  | acq_shared (tid : Nat) (s s' : LockState) :
      ProviderLock.acquire_shared tid s = some s' → LockStep s s'
  | rel_shared (tid : Nat) (s s' : LockState) :
      ProviderLock.release_shared tid s = Except.ok s' → LockStep s s'
  | writer_enq (s : LockState) : LockStep s (ProviderLock.writer_enqueue s)
  | writer_acq (s s' : LockState) :
      0 < s.waiting_writers → ProviderLock.writer_acquire s = some s' → LockStep s s'
  | rel_excl (s : LockState) : LockStep s (ProviderLock.release_exclusive s)

/-- Same steps, but release_exclusive is only taken by a caller that actually
holds the exclusive lock (the usage the context managers guarantee). -/
inductive LockStepOk : LockState → LockState → Prop
  | acq_shared (tid : Nat) (s s' : LockState) :
      ProviderLock.acquire_shared tid s = some s' → LockStepOk s s'
  | rel_shared (tid : Nat) (s s' : LockState) :
      ProviderLock.release_shared tid s = Except.ok s' → LockStepOk s s'
  | writer_enq (s : LockState) : LockStepOk s (ProviderLock.writer_enqueue s)
  | writer_acq (s s' : LockState) :
      0 < s.waiting_writers → ProviderLock.writer_acquire s = some s' → LockStepOk s s'
  | rel_excl (s : LockState) :
      s.active_writers = 1 → LockStepOk s (ProviderLock.release_exclusive s)

/-- States reachable from the fresh lock by arbitrary sequences of calls. -/
def LockReachable (s : LockState) : Prop :=
  Relation.ReflTransGen LockStep ProviderLock.initial_state s

/-- States reachable from the fresh lock by call sequences in which every
release_exclusive is matched to a held exclusive lock. -/
def LockReachableOk (s : LockState) : Prop :=
  Relation.ReflTransGen LockStepOk ProviderLock.initial_state s

/-- The inductive invariant of the lock state: active_readers counts the
distinct reader threads, thread ids are keyed uniquely, the writer flag is 0
or 1, the waiting-writer count is non-negative, and an active writer excludes
all readers. -/
def LockInv (s : LockState) : Prop :=
  s.active_readers = (s.reader_threads.length : Int) ∧
  (s.reader_threads.map Prod.fst).Nodup ∧
  (s.active_writers = 0 ∨ s.active_writers = 1) ∧
  0 ≤ s.waiting_writers ∧
  (s.active_writers = 1 → s.reader_threads = [])

theorem lockInv_initial : LockInv ProviderLock.initial_state := by
  refine ⟨rfl, ?_, Or.inl rfl, le_refl 0, ?_⟩
  · simp [ProviderLock.initial_state]
  · intro h; rfl

theorem lockInv_step {s s' : LockState} (hstep : LockStepOk s s') (hI : LockInv s) :
    LockInv s' := by
  obtain ⟨hlen, hnd, hw01, hww, hwr⟩ := hI
  cases hstep with
  | acq_shared tid s s' h =>
    unfold ProviderLock.acquire_shared at h
    cases hg : alGet s.reader_threads tid with
    | some n =>
      rw [hg] at h
      simp only [Option.some.injEq] at h
      subst h
      refine ⟨?_, ?_, hw01, hww, ?_⟩
      · simpa [alSet_length_of_mem _ _ _ _ hg] using hlen
      · simpa [alSet_keys_of_mem _ _ _ _ hg] using hnd
      · intro h1
        exfalso
        rw [hwr h1] at hg
        simp [alGet] at hg
    | none =>
      rw [hg] at h
      by_cases hcond : s.active_writers > 0 ∨ s.waiting_writers > 0
      · rw [if_pos hcond] at h; exact absurd h (by simp)
      · rw [if_neg hcond] at h
        simp only [Option.some.injEq] at h
        subst h
        push_neg at hcond
        have haw : s.active_writers = 0 := by omega
        rw [alSet_of_not_mem _ _ _ hg]
        refine ⟨?_, ?_, hw01, hww, ?_⟩
        · simp only [List.length_append, List.length_cons, List.length_nil]
          push_cast
          omega
        · rw [List.map_append, List.nodup_append]
          refine ⟨hnd, by simp, ?_⟩
          intro a ha hb
          simp only [List.map_cons, List.map_nil, List.mem_singleton] at hb
          subst hb
          exact (alGet_eq_none_iff _ _).mp hg ha
        · intro h1; simp at h1; omega
  | rel_shared tid s s' h =>
    unfold ProviderLock.release_shared at h
    cases hg : alGet s.reader_threads tid with
    | none => rw [hg] at h; exact absurd h (by simp)
    | some n =>
      rw [hg] at h
      dsimp only at h
      by_cases hz : n - 1 = 0
      · rw [if_pos hz] at h
        simp only [Except.ok.injEq] at h
        subst h
        refine ⟨?_, ?_, hw01, hww, ?_⟩
        · have hl := alDel_length _ _ _ hg
          simp only []
          omega
        · exact hnd.sublist (List.Sublist.map Prod.fst (alDel_sublist _ _))
        · intro h1
          exfalso
          rw [hwr h1] at hg
          simp [alGet] at hg
      · rw [if_neg hz] at h
        simp only [Except.ok.injEq] at h
        subst h
        refine ⟨?_, ?_, hw01, hww, ?_⟩
        · simpa [alSet_length_of_mem _ _ _ _ hg] using hlen
        · simpa [alSet_keys_of_mem _ _ _ _ hg] using hnd
        · intro h1
          exfalso
          rw [hwr h1] at hg
          simp [alGet] at hg
  | writer_enq s =>
    exact ⟨hlen, hnd, hw01, by simp [ProviderLock.writer_enqueue]; omega,
      fun h1 => hwr h1⟩
  | writer_acq s s' hwwpos h =>
    unfold ProviderLock.writer_acquire at h
    by_cases hcond : s.active_readers > 0 ∨ s.active_writers > 0
    · rw [if_pos hcond] at h; exact absurd h (by simp)
    · rw [if_neg hcond] at h
      simp only [Option.some.injEq] at h
      subst h
      push_neg at hcond
      have haw : s.active_writers = 0 := by omega
      have hlen0 : s.reader_threads.length = 0 := by omega
      have hempty : s.reader_threads = [] := List.length_eq_zero.mp hlen0
      exact ⟨hlen, hnd, by simp; omega, by simp; omega, fun _ => hempty⟩
  | rel_excl s h1 =>
    refine ⟨hlen, hnd, ?_, hww, ?_⟩
    · simp [ProviderLock.release_exclusive]; omega
    · intro hx
      simp [ProviderLock.release_exclusive] at hx
      omega

theorem lockInv_reachableOk {s : LockState} (h : LockReachableOk s) : LockInv s := by
  induction h with
  | refl => exact lockInv_initial
  | tail _ hstep ih => exact lockInv_step hstep ih

/-! ### The exclusive() context manager with escalation (concurrency.py 104-145)

The manager runs in one thread with no interleaving from other threads; the
loops `for _ in range(reader_count)` become the two iterated helpers below.
Because the body's release and the shared-lock restoration sit in finally
blocks, the state path is the same whether the body returns or raises, so the
body itself does not appear in the model.  The result is the pair of the state
while the body runs and the state after the manager exits, or `none` if some
phase would block forever in this solo execution. -/

namespace ProviderLock

/-- The release loop of the escalation path: release the caller's shared hold
`count` times in a row. -/
def release_shared_n (tid : Nat) : Nat → LockState → Option LockState
  | 0, s => some s
  | k + 1, s =>
    match release_shared tid s with
    | Except.ok s' => release_shared_n tid k s'
    | Except.error _ => none

/-- The restore loop of the escalation path: acquire shared `count` times. -/
def acquire_shared_n (tid : Nat) : Nat → LockState → Option LockState
  | 0, s => some s
  | k + 1, s =>
    match acquire_shared tid s with
    | some s' => acquire_shared_n tid k s'
    | none => none

/-- exclusive() as executed by one caller thread: if the thread is a reader it
releases all of its holds, acquires exclusive, and after the body restores its
holds; otherwise it acquires and releases exclusive directly. -/
def exclusive (tid : Nat) (s : LockState) : Option (LockState × LockState) :=
  match alGet s.reader_threads tid with
  | some reader_count =>
    match release_shared_n tid reader_count s with
    | none => none
    | some s1 =>
      match acquire_exclusive s1 with
      | none => none
      | some s2 =>
        match acquire_shared_n tid reader_count (release_exclusive s2) with
        | none => none
        | some s4 => some (s2, s4)
  | none =>
    match acquire_exclusive s with
    | none => none
    | some s2 => some (s2, release_exclusive s2)

end ProviderLock

theorem release_shared_n_solo (tid : Nat) (k : Nat) :
    ∀ ar aw ww : Int, ProviderLock.release_shared_n tid (k + 1) ⟨ar, aw, ww, [(tid, k + 1)]⟩ =
      some ⟨ar - 1, aw, ww, []⟩ := by
  induction k with
  | zero =>
    intro ar aw ww
    simp [ProviderLock.release_shared_n, ProviderLock.release_shared, alGet, alDel]
  | succ k ih =>
    intro ar aw ww
    have hstep : ProviderLock.release_shared tid ⟨ar, aw, ww, [(tid, k + 2)]⟩ =
        Except.ok ⟨ar, aw, ww, [(tid, k + 1)]⟩ := by
      simp [ProviderLock.release_shared, alGet, alSet]
    simp only [ProviderLock.release_shared_n, hstep]
    exact ih ar aw ww

theorem acquire_shared_n_reentrant (tid : Nat) (k : Nat) :
    ∀ (j : Nat) (ar aw ww : Int),
      ProviderLock.acquire_shared_n tid k ⟨ar, aw, ww, [(tid, j)]⟩ =
        some ⟨ar, aw, ww, [(tid, j + k)]⟩ := by
  induction k with
  | zero => intro j ar aw ww; simp [ProviderLock.acquire_shared_n]
  | succ k ih =>
    intro j ar aw ww
    have hstep : ProviderLock.acquire_shared tid ⟨ar, aw, ww, [(tid, j)]⟩ =
        some ⟨ar, aw, ww, [(tid, j + 1)]⟩ := by
      simp [ProviderLock.acquire_shared, alGet, alSet]
    simp only [ProviderLock.acquire_shared_n, hstep]
    rw [ih (j + 1) ar aw ww]
    have hjk : j + 1 + k = j + (k + 1) := by omega
    rw [hjk]

/-- Claim C2: a caller that holds the shared lock with hold count N at least 1
(and, for progress in this single-thread execution, is the sole reader with no
writer active or waiting) enters withExclusive without deadlocking against
itself: every phase completes; while the body runs there are 0 active readers
and the caller holds the exclusive lock; and after the manager exits (the
restore loop runs in a finally block, so on error exits too) the caller's
shared hold count is exactly N again, the lock state being restored
completely. -/
theorem exclusive_escalation_correct (tid : Nat) (n : Nat) (hn : 1 ≤ n) :
    ∃ sB sF : LockState,
      ProviderLock.exclusive tid ⟨1, 0, 0, [(tid, n)]⟩ = some (sB, sF) ∧
      sB.active_readers = 0 ∧ sB.active_writers = 1 ∧ sB.reader_threads = [] ∧
      alGet sF.reader_threads tid = some n ∧ sF = ⟨1, 0, 0, [(tid, n)]⟩ := by
  obtain ⟨m, rfl⟩ : ∃ m, n = m + 1 := ⟨n - 1, by omega⟩
  refine ⟨⟨0, 1, 0, []⟩, ⟨1, 0, 0, [(tid, m + 1)]⟩, ?_, rfl, rfl, rfl, by simp [alGet], rfl⟩
  have hget : alGet ([(tid, m + 1)] : List (Nat × Nat)) tid = some (m + 1) := by
    simp [alGet]
  have hrel := release_shared_n_solo tid m 1 0 0
  have hexcl : ProviderLock.acquire_exclusive ⟨(1 : Int) - 1, 0, 0, []⟩ =
      some ⟨0, 1, 0, []⟩ := by
    simp [ProviderLock.acquire_exclusive]
  have hrelex : ProviderLock.release_exclusive ⟨0, 1, 0, []⟩ = ⟨0, 0, 0, []⟩ := by
    simp [ProviderLock.release_exclusive]
  have hacq1 : ProviderLock.acquire_shared tid ⟨0, 0, 0, []⟩ =
      some ⟨1, 0, 0, [(tid, 1)]⟩ := by
    simp [ProviderLock.acquire_shared, alGet, alSet]
  have hacqn : ProviderLock.acquire_shared_n tid (m + 1) ⟨0, 0, 0, []⟩ =
      some ⟨1, 0, 0, [(tid, m + 1)]⟩ := by
    simp only [ProviderLock.acquire_shared_n, hacq1]
    rw [acquire_shared_n_reentrant tid m 1 1 0 0]
    have h1m : 1 + m = m + 1 := by omega
    rw [h1m]
  simp only [ProviderLock.exclusive, hget, hrel, hexcl, hrelex, hacqn]

/-- Claim C2 witness: escalation from 2 shared holds for thread 7. -/
theorem exclusive_escalation_example :
    ∃ sB sF : LockState,
      ProviderLock.exclusive 7 ⟨1, 0, 0, [(7, 2)]⟩ = some (sB, sF) ∧
      sB.active_readers = 0 ∧ sB.active_writers = 1 ∧ sB.reader_threads = [] ∧
      alGet sF.reader_threads 7 = some 2 ∧ sF = ⟨1, 0, 0, [(7, 2)]⟩ :=
  exclusive_escalation_correct 7 2 (by decide)

/-- Claim C3, counterexample: the invariant is not maintained by arbitrary
sequences of the four lock calls, because release_exclusive decrements
active_writers without checking that an exclusive lock is held.  The one-step
sequence consisting of a single release_exclusive call on the fresh lock
reaches a state with active_writers equal to -1, which is neither 0 nor 1. -/
theorem lock_invariant_violated_by_unmatched_release :
    LockReachable (ProviderLock.release_exclusive ProviderLock.initial_state) ∧
    ¬ ((ProviderLock.release_exclusive ProviderLock.initial_state).active_writers = 0 ∨
       (ProviderLock.release_exclusive ProviderLock.initial_state).active_writers = 1) :=
  ⟨Relation.ReflTransGen.single (LockStep.rel_excl _), by decide⟩

/-- Claim C3, amended: in every lock state reachable from the initial state by
any sequence of acquireShared / releaseShared / acquireExclusive /
releaseExclusive steps in which each releaseExclusive is performed while the
exclusive lock is held (as the shared()/exclusive() context managers
guarantee), activeWriters is 0 or 1, activeWriters = 1 implies
activeReaders = 0, and activeReaders > 0 implies activeWriters = 0. -/
theorem lock_invariant_of_matched_releases (s : LockState) (h : LockReachableOk s) :
    (s.active_writers = 0 ∨ s.active_writers = 1) ∧
    (s.active_writers = 1 → s.active_readers = 0) ∧
    (0 < s.active_readers → s.active_writers = 0) := by
  obtain ⟨hlen, _, hw01, _, hwr⟩ := lockInv_reachableOk h
  refine ⟨hw01, ?_, ?_⟩
  · intro h1
    rw [hwr h1] at hlen
    simpa using hlen
  · intro hr
    rcases hw01 with h0 | h1
    · exact h0
    · exfalso
      rw [hwr h1] at hlen
      simp at hlen
      omega

/-- Claim C3 witness: the invariant at a concrete reachable state, after one
reader acquired the shared lock from the fresh state. -/
theorem lock_invariant_example :
    ((⟨1, 0, 0, [(5, 1)]⟩ : LockState).active_writers = 0 ∨
     (⟨1, 0, 0, [(5, 1)]⟩ : LockState).active_writers = 1) ∧
    ((⟨1, 0, 0, [(5, 1)]⟩ : LockState).active_writers = 1 →
     (⟨1, 0, 0, [(5, 1)]⟩ : LockState).active_readers = 0) ∧
    (0 < (⟨1, 0, 0, [(5, 1)]⟩ : LockState).active_readers →
     (⟨1, 0, 0, [(5, 1)]⟩ : LockState).active_writers = 0) :=
  lock_invariant_of_matched_releases _
    (Relation.ReflTransGen.single
      (LockStepOk.acq_shared 5 ProviderLock.initial_state _ (by decide)))

theorem alGet_alDel_ne {κ β : Type} [DecidableEq κ] (m : List (κ × β)) (key t : κ)
    (h : t ≠ key) : alGet (alDel m key) t = alGet m t := by
  induction m with
  | nil => simp [alDel]
  | cons p rest ih =>
    obtain ⟨k, w⟩ := p
    by_cases hk : k = key
    · subst hk
      have hkt : ¬ k = t := fun hh => h hh.symm
      simp [alDel, alGet, hkt]
    · by_cases ht : k = t
      · subst ht; simp [alDel, alGet, hk]
      · simp [alDel, alGet, hk, ht, ih]

/-- Claim C4: acquire_shared blocks (returns none) exactly when the caller is
a fresh reader and a writer is active or waiting.  A reentrant caller (one
that already holds a shared hold) succeeds immediately even in that case and
only its own hold count grows; a fresh caller admitted when no writer is
active or waiting increments active_readers by exactly one and gets hold
count 1.  In both success cases no other thread's hold count changes. -/
theorem acquire_shared_spec (s : LockState) (tid : Nat) :
    (∀ n, alGet s.reader_threads tid = some n →
      ∃ s', ProviderLock.acquire_shared tid s = some s' ∧
        alGet s'.reader_threads tid = some (n + 1) ∧
        s'.active_readers = s.active_readers ∧
        s'.active_writers = s.active_writers ∧
        s'.waiting_writers = s.waiting_writers ∧
        (∀ t, t ≠ tid → alGet s'.reader_threads t = alGet s.reader_threads t)) ∧
    (alGet s.reader_threads tid = none →
      ((0 < s.active_writers ∨ 0 < s.waiting_writers) →
        ProviderLock.acquire_shared tid s = none) ∧
      (s.active_writers ≤ 0 → s.waiting_writers ≤ 0 →
        ∃ s', ProviderLock.acquire_shared tid s = some s' ∧
          s'.active_readers = s.active_readers + 1 ∧
          alGet s'.reader_threads tid = some 1 ∧
          s'.active_writers = s.active_writers ∧
          s'.waiting_writers = s.waiting_writers ∧
          (∀ t, t ≠ tid → alGet s'.reader_threads t = alGet s.reader_threads t))) := by
  constructor
  · intro n hg
    refine ⟨{ s with reader_threads := alSet s.reader_threads tid (n + 1) },
      ?_, ?_, rfl, rfl, rfl, ?_⟩
    · unfold ProviderLock.acquire_shared
      rw [hg]
    · exact alGet_alSet_self _ _ _
    · intro t ht
      exact alGet_alSet_ne _ _ _ _ ht
  · intro hg
    constructor
    · intro hblock
      unfold ProviderLock.acquire_shared
      rw [hg]
      dsimp only
      rw [if_pos]
      rcases hblock with h1 | h2
      · exact Or.inl h1
      · exact Or.inr h2
    · intro haw hww
      refine ⟨{ s with
          active_readers := s.active_readers + 1
          reader_threads := alSet s.reader_threads tid 1 },
        ?_, rfl, ?_, rfl, rfl, ?_⟩
      · unfold ProviderLock.acquire_shared
        rw [hg]
        dsimp only
        rw [if_neg]
        push_neg
        exact ⟨haw, hww⟩
      · exact alGet_alSet_self _ _ _
      · intro t ht
        exact alGet_alSet_ne _ _ _ _ ht

/-- Claim C4 witness: a fresh caller on the fresh lock is admitted, gains hold
count 1, and active_readers becomes 1. -/
theorem acquire_shared_example :
    ∃ s', ProviderLock.acquire_shared 3 ProviderLock.initial_state = some s' ∧
      s'.active_readers = ProviderLock.initial_state.active_readers + 1 ∧
      alGet s'.reader_threads 3 = some 1 ∧
      s'.active_writers = ProviderLock.initial_state.active_writers ∧
      s'.waiting_writers = ProviderLock.initial_state.waiting_writers ∧
      (∀ t, t ≠ 3 → alGet s'.reader_threads t =
        alGet ProviderLock.initial_state.reader_threads t) :=
  ((acquire_shared_spec ProviderLock.initial_state 3).2 (by decide)).2
    (by decide) (by decide)

/-- Claim C9: release_shared called by a thread holding no shared lock raises
the lock-state error (RuntimeError in the source) before touching any state,
so the counters and the reader-hold map are unchanged; called by a thread with
at least one hold it succeeds, decrementing that thread's hold count (removing
the thread and decrementing active_readers when the count reaches zero) and
leaving every other thread's holds alone. -/
theorem release_shared_contract (s : LockState) (tid : Nat)
    (hnd : (s.reader_threads.map Prod.fst).Nodup) :
    (alGet s.reader_threads tid = none →
      ProviderLock.release_shared tid s =
        Except.error "Thread does not hold shared lock") ∧
    (∀ n, alGet s.reader_threads tid = some n →
      ∃ s', ProviderLock.release_shared tid s = Except.ok s' ∧
        s'.active_writers = s.active_writers ∧
        s'.waiting_writers = s.waiting_writers ∧
        (∀ t, t ≠ tid → alGet s'.reader_threads t = alGet s.reader_threads t) ∧
        (n - 1 = 0 →
          alGet s'.reader_threads tid = none ∧
          s'.active_readers = s.active_readers - 1) ∧
        (n - 1 ≠ 0 →
          alGet s'.reader_threads tid = some (n - 1) ∧
          s'.active_readers = s.active_readers)) := by
  constructor
  · intro hg
    unfold ProviderLock.release_shared
    rw [hg]
  · intro n hg
    by_cases hz : n - 1 = 0
    · refine ⟨{ s with
          reader_threads := alDel s.reader_threads tid
          active_readers := s.active_readers - 1 },
        ?_, rfl, rfl, ?_, ?_, ?_⟩
      · unfold ProviderLock.release_shared
        rw [hg]
        dsimp only
        rw [if_pos hz]
      · intro t ht
        exact alGet_alDel_ne s.reader_threads tid t ht
      · intro _
        exact ⟨alGet_alDel_self _ _ hnd, rfl⟩
      · intro hc; exact absurd hz hc
    · refine ⟨{ s with reader_threads := alSet s.reader_threads tid (n - 1) },
        ?_, rfl, rfl, ?_, ?_, ?_⟩
      · unfold ProviderLock.release_shared
        rw [hg]
        dsimp only
        rw [if_neg hz]
      · intro t ht
        exact alGet_alSet_ne _ _ _ _ ht
      · intro hc; exact absurd hc hz
      · intro _
        exact ⟨alGet_alSet_self _ _ _, rfl⟩

/-- Claim C9 witness: applied at a concrete state where thread 4 holds 2
shared holds; thread 9 (no holds) would get the RuntimeError, and thread 4
releasing once keeps hold count 1 with active_readers unchanged. -/
theorem release_shared_contract_example :
    (alGet (⟨1, 0, 0, [(4, 2)]⟩ : LockState).reader_threads 4 = none →
      ProviderLock.release_shared 4 ⟨1, 0, 0, [(4, 2)]⟩ =
        Except.error "Thread does not hold shared lock") ∧
    (∀ n, alGet (⟨1, 0, 0, [(4, 2)]⟩ : LockState).reader_threads 4 = some n →
      ∃ s', ProviderLock.release_shared 4 ⟨1, 0, 0, [(4, 2)]⟩ = Except.ok s' ∧
        s'.active_writers = (⟨1, 0, 0, [(4, 2)]⟩ : LockState).active_writers ∧
        s'.waiting_writers = (⟨1, 0, 0, [(4, 2)]⟩ : LockState).waiting_writers ∧
        (∀ t, t ≠ 4 → alGet s'.reader_threads t =
          alGet (⟨1, 0, 0, [(4, 2)]⟩ : LockState).reader_threads t) ∧
        (n - 1 = 0 → alGet s'.reader_threads 4 = none ∧
          s'.active_readers = (⟨1, 0, 0, [(4, 2)]⟩ : LockState).active_readers - 1) ∧
        (n - 1 ≠ 0 → alGet s'.reader_threads 4 = some (n - 1) ∧
          s'.active_readers = (⟨1, 0, 0, [(4, 2)]⟩ : LockState).active_readers)) :=
  release_shared_contract ⟨1, 0, 0, [(4, 2)]⟩ 4 (by decide)

/-! ### The task dispatcher (Orchestrator.run_parallel_tasks, orchestrator.py)

A task is (identifier, operation); the operation is the backend call made by
the worker function, returning (success, message) or raising (Except.error).
The worker functions the orchestrator submits (_install_provider,
_upgrade_provider, _clean_provider) all follow the same shape: run the
operation in try/except, return (name, True, message) on success and
(name, False, text formatted from the identifier and the error) on any caught
exception.  ThreadPoolExecutor + as_completed yields each submitted future
exactly once, in completion order: the dispatcher is therefore parametrised
by a `completion` list required to be a permutation of the task list. -/

structure TaskResult where
  name : String
  success : Bool
  message : String
deriving DecidableEq

/-- One worker call: invoke the task's operation, catching any error and
converting it into a failed TaskResult whose message is formatted from the
task identifier and the error text (the shape of _install_provider,
_upgrade_provider and _clean_provider in orchestrator.py). -/
def run_worker (fmt : String → String → String)
    (task : String × (Unit → Except String (Bool × String))) : TaskResult :=
  match task.2 () with
  | Except.ok r => ⟨task.1, r.1, r.2⟩
  | Except.error e => ⟨task.1, false, fmt task.1 e⟩

/-- run_parallel_tasks (orchestrator.py lines 121-149): an empty task list
returns [] at once, before any executor is created; otherwise every task is
submitted and the worker results are collected in completion order. -/
def run_parallel_tasks {α : Type} (worker : α → TaskResult)
    (tasks completion : List α) : List TaskResult :=
  if tasks.isEmpty then [] else completion.map worker

theorem run_worker_name (fmt : String → String → String)
    (task : String × (Unit → Except String (Bool × String))) :
    (run_worker fmt task).name = task.1 := by
  unfold run_worker
  cases task.2 () with
  | ok r => rfl
  | error e => rfl

/-- Claim C1: for every batch, every completion order, and every task whose
operation raises, the dispatcher (run_parallel_tasks with the orchestrator's
worker shape) converts the error into a TaskResult with success = false and a
message formatted from the error, never propagating it: the call is total and
still returns one TaskResult per task, and every task whose operation
succeeds contributes its own result unaltered. -/
theorem runAll_isolates_failures
    (tasks completion : List (String × (Unit → Except String (Bool × String))))
    (fmt : String → String → String)
    (hperm : completion.Perm tasks) :
    (run_parallel_tasks (run_worker fmt) tasks completion).length = tasks.length ∧
    (∀ nm op, (nm, op) ∈ tasks →
      (∀ e, op () = Except.error e →
        (⟨nm, false, fmt nm e⟩ : TaskResult) ∈
          run_parallel_tasks (run_worker fmt) tasks completion) ∧
      (∀ ok msg, op () = Except.ok (ok, msg) →
        (⟨nm, ok, msg⟩ : TaskResult) ∈
          run_parallel_tasks (run_worker fmt) tasks completion)) := by
  constructor
  · unfold run_parallel_tasks
    by_cases he : tasks.isEmpty
    · rw [if_pos he]
      rw [List.isEmpty_iff] at he
      simp [he]
    · rw [if_neg he]
      simp [hperm.length_eq]
  · intro nm op hmem
    have hne : ¬ tasks.isEmpty := by
      rw [List.isEmpty_iff]
      intro hnil
      rw [hnil] at hmem
      simp at hmem
    have hmemc : (nm, op) ∈ completion := hperm.mem_iff.mpr hmem
    constructor
    · intro e herr
      unfold run_parallel_tasks
      rw [if_neg hne]
      have : run_worker fmt (nm, op) = ⟨nm, false, fmt nm e⟩ := by
        unfold run_worker
        dsimp only
        rw [herr]
      rw [← this]
      exact List.mem_map_of_mem _ hmemc
    · intro ok msg hok
      unfold run_parallel_tasks
      rw [if_neg hne]
      have : run_worker fmt (nm, op) = ⟨nm, ok, msg⟩ := by
        unfold run_worker
        dsimp only
        rw [hok]
      rw [← this]
      exact List.mem_map_of_mem _ hmemc

/-- Example batch for the claim C1 witness: three tasks of which the second
raises. -/
def exTasksC1 : List (String × (Unit → Except String (Bool × String))) :=
  [("alpha", fun _ => Except.ok (true, "installed")),
   ("beta", fun _ => Except.error "boom"),
   ("gamma", fun _ => Except.ok (true, "cleaned"))]

/-- Failure-message template for the claim C1 witness. -/
def exFmtC1 (nm e : String) : String := "Failed " ++ nm ++ ": " ++ e

/-- Claim C1 witness: with 3 tasks of which task 2 raises, exactly 3
TaskResults come back, task 2's is (beta, false, formatted error) and tasks
1 and 3 report their own results unaltered. -/
theorem runAll_isolates_failures_example :
    (run_parallel_tasks (run_worker exFmtC1) exTasksC1 exTasksC1).length =
      exTasksC1.length ∧
    (∀ nm op, (nm, op) ∈ exTasksC1 →
      (∀ e, op () = Except.error e →
        (⟨nm, false, exFmtC1 nm e⟩ : TaskResult) ∈
          run_parallel_tasks (run_worker exFmtC1) exTasksC1 exTasksC1) ∧
      (∀ ok msg, op () = Except.ok (ok, msg) →
        (⟨nm, ok, msg⟩ : TaskResult) ∈
          run_parallel_tasks (run_worker exFmtC1) exTasksC1 exTasksC1)) :=
  runAll_isolates_failures exTasksC1 exTasksC1 exFmtC1 (List.Perm.refl _)

/-- Claim C5: for every batch and every completion order, the dispatcher
returns exactly one TaskResult per task and, when the submitted identifiers
are distinct, every submitted identifier appears exactly once among the
results (which may be in any completion order); and the empty batch returns
the empty sequence immediately, before any executor is created. -/
theorem runAll_results_complete
    (tasks completion : List (String × (Unit → Except String (Bool × String))))
    (fmt : String → String → String)
    (hperm : completion.Perm tasks)
    (hnd : (tasks.map Prod.fst).Nodup) :
    (∀ c : List (String × (Unit → Except String (Bool × String))),
      run_parallel_tasks (run_worker fmt) [] c = []) ∧
    (run_parallel_tasks (run_worker fmt) tasks completion).length = tasks.length ∧
    (∀ nm, nm ∈ tasks.map Prod.fst →
      ((run_parallel_tasks (run_worker fmt) tasks completion).map
        TaskResult.name).count nm = 1) := by
  refine ⟨fun c => rfl, ?_, ?_⟩
  · unfold run_parallel_tasks
    by_cases he : tasks.isEmpty
    · rw [if_pos he]
      rw [List.isEmpty_iff] at he
      simp [he]
    · rw [if_neg he]
      simp [hperm.length_eq]
  · intro nm hmem
    have hne : ¬ tasks.isEmpty := by
      rw [List.isEmpty_iff]
      intro hnil
      rw [hnil] at hmem
      simp at hmem
    unfold run_parallel_tasks
    rw [if_neg hne]
    have hmap : (completion.map (run_worker fmt)).map TaskResult.name =
        completion.map Prod.fst := by
      rw [List.map_map]
      exact List.map_congr_left (fun t _ => run_worker_name fmt t)
    rw [hmap]
    have hpermf : (completion.map Prod.fst).Perm (tasks.map Prod.fst) :=
      hperm.map Prod.fst
    rw [hpermf.count_eq]
    exact List.count_eq_one_of_mem hnd hmem

/-- Example batch for the claim C5 witness. -/
def exTasksC5 : List (String × (Unit → Except String (Bool × String))) :=
  [("nixpkgs", fun _ => Except.ok (true, "upgraded")),
   ("flatpak", fun _ => Except.error "network down")]

/-- Claim C5 witness: a 2-task batch yields 2 results with each identifier
appearing exactly once, and the empty batch yields the empty sequence. -/
theorem runAll_results_complete_example :
    (∀ c : List (String × (Unit → Except String (Bool × String))),
      run_parallel_tasks (run_worker exFmtC1) [] c = []) ∧
    (run_parallel_tasks (run_worker exFmtC1) exTasksC5 exTasksC5).length =
      exTasksC5.length ∧
    (∀ nm, nm ∈ exTasksC5.map Prod.fst →
      ((run_parallel_tasks (run_worker exFmtC1) exTasksC5 exTasksC5).map
        TaskResult.name).count nm = 1) :=
  runAll_results_complete exTasksC5 exTasksC5 exFmtC1 (List.Perm.refl _) (by decide)

/-! ### The Package value type (core/package.py) and the search cache (cache.py)

Python field values are dynamically typed; the JSON-representable values the
cache handles are modelled by JVal.  A serialized package is a dict from
string keys to JVal.  The JSON layer itself is lossless for these values, so
the store holds the dicts directly; a file whose text fails json.load (or
whose read raises IOError) is the `corrupt` store. -/

/-- A JSON-representable Python value as the cache meets it. -/
inductive JVal
  | s (v : String)
  | b (v : Bool)
  | i (v : Int)
  | null
deriving DecidableEq

/-- Python truthiness of a JVal, used by the `or` in Package.from_dict. -/
def JVal.truthy : JVal → Bool
  | JVal.s v => v ≠ ""
  | JVal.b v => v
  | JVal.i v => v ≠ 0
  | JVal.null => false

/-- `data.get(key, default)` on a dict of JVals. -/
def pyGetD (d : List (String × JVal)) (k : String) (dflt : JVal) : JVal :=
  (alGet d k).getD dflt

/-- Python `a or b` where a comes from `data.get(key)` (None when missing). -/
def pyOr (a : Option JVal) (b : JVal) : JVal :=
  match a with
  | some v => if v.truthy then v else b
  | none => b

/-- The dataclass Package (core/package.py lines 12-27).  Fields hold the
dynamic values Python would store; `extra` is the provider-specific dict. -/
structure Package where
  name : JVal
  provider : JVal
  id : JVal
  version : JVal
  description : JVal
  installed : JVal
  origin : JVal
  extra : List (String × JVal)
deriving DecidableEq

/-- Package.to_dict (core/package.py lines 29-45): the dict literal of the
seven named fields followed by `**self.extra`, whose keys override named keys
on collision (Python dict-literal merge semantics, modelled by iterated
dictionary writes). -/
def Package.to_dict (p : Package) : List (String × JVal) :=
  p.extra.foldl (fun d kv => alSet d kv.1 kv.2)
    [("name", p.name), ("provider", p.provider), ("id", p.id),
     ("version", p.version), ("description", p.description),
     ("installed", p.installed), ("origin", p.origin)]

/-- The seven field names Package.from_dict treats as reserved when it
rebuilds `extra`. -/
def reserved_keys : List String :=
  ["name", "provider", "id", "version", "description", "installed", "origin"]

/-- Package.from_dict (core/package.py lines 47-65) with its `provider`
default argument passed explicitly.  Note `id` uses Python `or`, falling back
to the name whenever the stored id is falsy. -/
def Package.from_dict (data : List (String × JVal)) (provider : JVal) : Package :=
  { name := pyGetD data "name" (JVal.s "unknown")
    provider := pyGetD data "provider" provider
    id := pyOr (alGet data "id") (pyGetD data "name" (JVal.s "unknown"))
    version := pyGetD data "version" (JVal.s "unknown")
    description := pyGetD data "description" (JVal.s "")
    installed := pyGetD data "installed" (JVal.b false)
    origin := pyGetD data "origin" JVal.null
    extra := data.filter (fun kv => !(reserved_keys.contains kv.1)) }

/-- One stored cache record `{"timestamp": ..., "results": [...]}`; either key
may be missing in a hand-edited or partial file, which the source reads with
`entry.get(..., default)`. -/
structure CacheEntry where
  timestamp : Option Int
  results : Option (List (List (String × JVal)))
deriving DecidableEq

/-- The cache file contents: `corrupt` when json.load raises (or the read
fails with IOError); otherwise the query-to-entry mapping.  A missing file
reads as `ok []`. -/
inductive Store
  | corrupt
  | ok (m : List (String × CacheEntry))
deriving DecidableEq

namespace SearchCache

/-- TTL_SECONDS = 300 (cache.py line 25). -/
def TTL_SECONDS : Int := 300

/-- _load_cache (cache.py lines 42-50): corrupt or unreadable storage loads
as the empty mapping instead of raising. -/
def load_cache : Store → List (String × CacheEntry)
  | Store.corrupt => []
  | Store.ok m => m

/-- get (cache.py lines 68-94), returning the result together with the store
as left on disk: absent when the query has no entry; when the entry's age
exceeds the TTL it is deleted from the store (the write is modelled as
succeeding) and absent is returned; otherwise the stored dicts are
deserialized through Package.from_dict. -/
def get (now : Int) (st : Store) (query : String) :
    Option (List Package) × Store :=
  let cache := load_cache st
  match alGet cache query with
  | none => (none, st)
  | some entry =>
    let timestamp := entry.timestamp.getD 0
    let results_data := entry.results.getD []
    if now - timestamp > TTL_SECONDS then
      (none, Store.ok (alDel cache query))
    else
      (some (results_data.map (fun d => Package.from_dict d (JVal.s "unknown"))), st)

/-- set (cache.py lines 96-109): unconditionally overwrite the query's entry
with the current time and the serialized results, and write the store back. -/
def set (now : Int) (st : Store) (query : String) (results : List Package) : Store :=
  let cache := load_cache st
  Store.ok (alSet cache query ⟨some now, some (results.map Package.to_dict)⟩)

/-- clear_expired (cache.py lines 119-133): collect the keys of all entries
older than the TTL (a missing timestamp reads as 0), delete each of them, and
write the store back only when something was deleted. -/
def clear_expired (now : Int) (st : Store) : Store :=
  let cache := load_cache st
  let expired_keys :=
    (cache.filter (fun kv => decide (now - kv.2.timestamp.getD 0 > TTL_SECONDS))).map
      Prod.fst
  let cache2 := expired_keys.foldl (fun c k => alDel c k) cache
  if expired_keys.isEmpty then st else Store.ok cache2

end SearchCache

theorem foldl_alDel_of_none {κ β : Type} [DecidableEq κ] (ks : List κ)
    (m : List (κ × β)) (q : κ) (h : alGet m q = none) :
    alGet (ks.foldl (fun c k => alDel c k) m) q = none := by
  induction ks generalizing m with
  | nil => exact h
  | cons k rest ih =>
    rw [List.foldl_cons]
    exact ih _ (alGet_alDel_of_none _ _ _ h)

theorem foldl_alDel_of_mem {κ β : Type} [DecidableEq κ] (ks : List κ)
    (m : List (κ × β)) (q : κ)
    (hnd : (m.map Prod.fst).Nodup) (hq : q ∈ ks) :
    alGet (ks.foldl (fun c k => alDel c k) m) q = none := by
  induction ks generalizing m with
  | nil => simp at hq
  | cons k rest ih =>
    rw [List.foldl_cons]
    by_cases hk : k = q
    · subst hk
      exact foldl_alDel_of_none rest _ _ (alGet_alDel_self m _ hnd)
    · have hnd' : ((alDel m k).map Prod.fst).Nodup :=
        hnd.sublist (List.Sublist.map Prod.fst (alDel_sublist m k))
      have hq' : q ∈ rest := by
        rcases List.mem_cons.mp hq with h1 | h2
        · exact absurd h1.symm hk
        · exact h2
      exact ih _ hnd' hq'

/-- Claim C6: get returns absent when the query has no entry, and when the
entry's age exceeds the 300 s TTL it returns absent and deletes the entry
from the store, so the query is gone from subsequent reads of the store.
(The store is a JSON object, so its keys are unique.) -/
theorem cache_get_expiry_evicts (now : Int) (st : Store) (q : String)
    (hnd : ((SearchCache.load_cache st).map Prod.fst).Nodup) :
    (alGet (SearchCache.load_cache st) q = none →
      SearchCache.get now st q = (none, st)) ∧
    (∀ e, alGet (SearchCache.load_cache st) q = some e →
      now - e.timestamp.getD 0 > SearchCache.TTL_SECONDS →
      (SearchCache.get now st q).1 = none ∧
      alGet (SearchCache.load_cache (SearchCache.get now st q).2) q = none) := by
  constructor
  · intro hg
    unfold SearchCache.get
    dsimp only
    rw [hg]
  · intro e hg hexp
    have hget : SearchCache.get now st q =
        (none, Store.ok (alDel (SearchCache.load_cache st) q)) := by
      unfold SearchCache.get
      dsimp only
      rw [hg]
      dsimp only
      rw [if_pos hexp]
    rw [hget]
    exact ⟨rfl, alGet_alDel_self _ _ hnd⟩

/-- Claim C6 witness: a store holding one entry written at time 0, read at
time 1000 (age 1000 s > 300 s): get returns absent and the entry is gone
from the store afterwards. -/
theorem cache_get_expiry_example :
    (alGet (SearchCache.load_cache (Store.ok [("git", ⟨some 0, some []⟩)]))
        "vim" = none →
      SearchCache.get 1000 (Store.ok [("git", ⟨some 0, some []⟩)]) "vim" =
        (none, Store.ok [("git", ⟨some 0, some []⟩)])) ∧
    (∀ e, alGet (SearchCache.load_cache (Store.ok [("git", ⟨some 0, some []⟩)]))
        "git" = some e →
      1000 - e.timestamp.getD 0 > SearchCache.TTL_SECONDS →
      (SearchCache.get 1000 (Store.ok [("git", ⟨some 0, some []⟩)]) "git").1 =
        none ∧
      alGet (SearchCache.load_cache
        (SearchCache.get 1000 (Store.ok [("git", ⟨some 0, some []⟩)]) "git").2)
        "git" = none) :=
  ⟨(cache_get_expiry_evicts 1000 (Store.ok [("git", ⟨some 0, some []⟩)]) "vim"
      (by decide)).1,
   (cache_get_expiry_evicts 1000 (Store.ok [("git", ⟨some 0, some []⟩)]) "git"
      (by decide)).2⟩

/-- Claim C7: when the backend's cache store is corrupt or unreadable,
every get returns absent (and, being a total function, never raises), and
the store is left as it was: the cache degrades to no entries. -/
theorem cache_get_corrupt_absent (now : Int) (q : String) :
    SearchCache.get now Store.corrupt q = (none, Store.corrupt) := rfl

/-- Claim C10: an entry whose stored record lacks the timestamp key is read
with timestamp 0, so once the current time exceeds the 300 s TTL it is
expired: get returns absent and evicts it, and clear_expired removes it,
with no error raised on the missing field.  (JSON object keys are unique.) -/
theorem cache_missing_timestamp_expired (now : Int) (st : Store) (q : String)
    (e : CacheEntry)
    (hnd : ((SearchCache.load_cache st).map Prod.fst).Nodup)
    (he : alGet (SearchCache.load_cache st) q = some e)
    (ht : e.timestamp = none)
    (hnow : SearchCache.TTL_SECONDS < now) :
    (SearchCache.get now st q).1 = none ∧
    alGet (SearchCache.load_cache (SearchCache.get now st q).2) q = none ∧
    alGet (SearchCache.load_cache (SearchCache.clear_expired now st)) q = none := by
  have hts : e.timestamp.getD 0 = 0 := by rw [ht]; rfl
  have hexp : now - e.timestamp.getD 0 > SearchCache.TTL_SECONDS := by
    rw [hts]; omega
  have hget := (cache_get_expiry_evicts now st q hnd).2 e he hexp
  refine ⟨hget.1, hget.2, ?_⟩
  unfold SearchCache.clear_expired
  have hmem : (q, e) ∈ SearchCache.load_cache st := alGet_some_mem _ _ _ he
  have hqmem : q ∈ ((SearchCache.load_cache st).filter
      (fun kv => decide (now - kv.2.timestamp.getD 0 >
        SearchCache.TTL_SECONDS))).map Prod.fst := by
    refine List.mem_map.mpr ⟨(q, e), ?_, rfl⟩
    rw [List.mem_filter]
    exact ⟨hmem, by simpa using hexp⟩
  have hne : ¬ (((SearchCache.load_cache st).filter
      (fun kv => decide (now - kv.2.timestamp.getD 0 >
        SearchCache.TTL_SECONDS))).map Prod.fst).isEmpty = true := by
    rw [List.isEmpty_iff]
    intro hnil
    rw [hnil] at hqmem
    simp at hqmem
  dsimp only
  rw [if_neg hne]
  exact foldl_alDel_of_mem _ _ _ hnd hqmem

/-- Claim C10 witness: a concrete store whose only entry has no timestamp
field, read at time 301. -/
theorem cache_missing_timestamp_example :
    (SearchCache.get 301 (Store.ok [("git", ⟨none, some []⟩)]) "git").1 = none ∧
    alGet (SearchCache.load_cache
      (SearchCache.get 301 (Store.ok [("git", ⟨none, some []⟩)]) "git").2)
      "git" = none ∧
    alGet (SearchCache.load_cache
      (SearchCache.clear_expired 301 (Store.ok [("git", ⟨none, some []⟩)])))
      "git" = none :=
  cache_missing_timestamp_expired 301 (Store.ok [("git", ⟨none, some []⟩)])
    "git" ⟨none, some []⟩ (by decide) (by decide) rfl (by decide)

theorem alGet_append_left {κ β : Type} [DecidableEq κ] (m l : List (κ × β))
    (k : κ) (v : β) (h : alGet m k = some v) : alGet (m ++ l) k = some v := by
  induction m with
  | nil => simp [alGet] at h
  | cons p rest ih =>
    obtain ⟨k1, w⟩ := p
    rw [List.cons_append]
    by_cases hk : k1 = k
    · simp only [alGet, if_pos hk] at h ⊢
      exact h
    · simp only [alGet, if_neg hk] at h ⊢
      exact ih h

theorem contains_false_not_mem {a : String} {l : List String}
    (h : l.contains a = false) : a ∉ l := by
  intro hmem
  have h2 : l.contains a = true := List.elem_eq_true_of_mem hmem
  rw [h2] at h
  exact absurd h (by simp)

theorem foldl_alSet_append (extra : List (String × JVal)) :
    ∀ base : List (String × JVal),
      (∀ kv ∈ extra, kv.1 ∉ base.map Prod.fst) →
      (extra.map Prod.fst).Nodup →
      extra.foldl (fun d kv => alSet d kv.1 kv.2) base = base ++ extra := by
  induction extra with
  | nil => intro base _ _; simp
  | cons kv rest ih =>
    intro base hdisj hnd
    obtain ⟨k, v⟩ := kv
    rw [List.foldl_cons]
    dsimp only
    have hget : alGet base k = none :=
      (alGet_eq_none_iff _ _).mpr (hdisj (k, v) (List.mem_cons_self _ _))
    rw [alSet_of_not_mem _ _ _ hget]
    simp only [List.map_cons, List.nodup_cons] at hnd
    have hdisj2 : ∀ kv2 ∈ rest, kv2.1 ∉ (base ++ [(k, v)]).map Prod.fst := by
      intro kv2 hkv2
      rw [List.map_append, List.mem_append]
      rintro (h1 | h2)
      · exact hdisj kv2 (List.mem_cons_of_mem _ hkv2) h1
      · simp only [List.map_cons, List.map_nil, List.mem_singleton] at h2
        exact hnd.1 (h2 ▸ List.mem_map_of_mem Prod.fst hkv2)
    rw [ih (base ++ [(k, v)]) hdisj2 hnd.2]
    simp

theorem from_dict_fields (d : List (String × JVal))
    (nm pv pid ver dsc ins org : JVal) (ext : List (String × JVal))
    (hN : alGet d "name" = some nm) (hP : alGet d "provider" = some pv)
    (hI : alGet d "id" = some pid) (hV : alGet d "version" = some ver)
    (hD : alGet d "description" = some dsc)
    (hInst : alGet d "installed" = some ins)
    (hO : alGet d "origin" = some org)
    (hF : d.filter (fun kv => !(reserved_keys.contains kv.1)) = ext)
    (hid : pid.truthy = true) :
    Package.from_dict d (JVal.s "unknown") = ⟨nm, pv, pid, ver, dsc, ins, org, ext⟩ := by
  unfold Package.from_dict pyGetD pyOr
  rw [hN, hP, hI, hV, hD, hInst, hO, hF]
  simp [hid]

/-- The serialization round trip of a single Package: it is the identity for
packages whose id is truthy and whose extra dict avoids the seven reserved
field names. -/
theorem from_dict_to_dict (p : Package)
    (hid : p.id.truthy = true)
    (hext : ∀ kv ∈ p.extra, reserved_keys.contains kv.1 = false)
    (hnd : (p.extra.map Prod.fst).Nodup) :
    Package.from_dict (Package.to_dict p) (JVal.s "unknown") = p := by
  obtain ⟨nm, pv, pid, ver, dsc, ins, org, ext⟩ := p
  simp only at hid hext hnd
  have hbase : Package.to_dict ⟨nm, pv, pid, ver, dsc, ins, org, ext⟩ =
      [("name", nm), ("provider", pv), ("id", pid), ("version", ver),
       ("description", dsc), ("installed", ins), ("origin", org)] ++ ext := by
    refine foldl_alSet_append ext _ ?_ hnd
    intro kv hkv hmemb
    have hnotin : kv.1 ∉ reserved_keys := contains_false_not_mem (hext kv hkv)
    apply hnotin
    simpa [reserved_keys] using hmemb
  rw [hbase]
  refine from_dict_fields _ nm pv pid ver dsc ins org ext
    (alGet_append_left _ _ _ _ rfl) (alGet_append_left _ _ _ _ rfl)
    (alGet_append_left _ _ _ _ rfl) (alGet_append_left _ _ _ _ rfl)
    (alGet_append_left _ _ _ _ rfl) (alGet_append_left _ _ _ _ rfl)
    (alGet_append_left _ _ _ _ rfl) ?_ hid
  rw [List.filter_append]
  have h0 : ([("name", nm), ("provider", pv), ("id", pid), ("version", ver),
      ("description", dsc), ("installed", ins), ("origin", org)]).filter
        (fun kv => !(reserved_keys.contains kv.1)) = [] := rfl
  rw [h0, List.nil_append]
  refine List.filter_eq_self.mpr (fun kv hkv => ?_)
  rw [hext kv hkv]
  rfl

/-- Claim C8, counterexample: the set-then-get round trip is not field-by-field
equality for every sequence of packages.  A package whose id is the empty
string comes back with its id replaced by its name, because from_dict computes
the id as `data.get("id") or data.get("name", "unknown")` and the empty string
is falsy. -/
theorem cache_roundtrip_claim_false :
    ¬ ((SearchCache.get 0 (SearchCache.set 0 (Store.ok []) "git"
        [⟨JVal.s "git", JVal.s "nixpkgs", JVal.s "", JVal.s "1.0",
          JVal.s "", JVal.b false, JVal.null, []⟩]) "git").1 =
      some [⟨JVal.s "git", JVal.s "nixpkgs", JVal.s "", JVal.s "1.0",
        JVal.s "", JVal.b false, JVal.null, []⟩]) := by
  decide

/-- Claim C8, amended: for every query and every sequence of packages whose
ids are truthy (in particular non-empty strings) and whose extra dicts use
pairwise distinct keys outside the seven reserved field names, set followed by
get within the 300 s TTL returns a sequence equal field-by-field to the one
stored; in particular a cached empty sequence comes back as `some []`,
distinguishable from absent. -/
theorem cache_roundtrip_of_truthy_id (now0 now1 : Int) (st : Store) (q : String)
    (rs : List Package)
    (htime : now1 - now0 ≤ SearchCache.TTL_SECONDS)
    (hgood : ∀ p ∈ rs, p.id.truthy = true ∧
      (∀ kv ∈ p.extra, reserved_keys.contains kv.1 = false) ∧
      (p.extra.map Prod.fst).Nodup) :
    (SearchCache.get now1 (SearchCache.set now0 st q rs) q).1 = some rs := by
  have hset : SearchCache.set now0 st q rs =
      Store.ok (alSet (SearchCache.load_cache st) q
        ⟨some now0, some (rs.map Package.to_dict)⟩) := rfl
  rw [hset]
  unfold SearchCache.get
  dsimp only [SearchCache.load_cache]
  rw [alGet_alSet_self]
  dsimp only
  rw [if_neg (by simpa using htime)]
  simp only [Option.getD_some]
  rw [List.map_map]
  have hmap : rs.map ((fun d => Package.from_dict d (JVal.s "unknown")) ∘
      Package.to_dict) = rs.map id := by
    refine List.map_congr_left ?_
    intro p hp
    obtain ⟨h1, h2, h3⟩ := hgood p hp
    exact from_dict_to_dict p h1 h2 h3
  rw [hmap, List.map_id]

/-- Claim C8 witness: a concrete package round-trips exactly within the TTL,
and a cached empty sequence reads back as the empty sequence, not absent. -/
theorem cache_roundtrip_example :
    (SearchCache.get 100 (SearchCache.set 0 (Store.ok []) "git"
      [⟨JVal.s "git", JVal.s "nixpkgs", JVal.s "git", JVal.s "2.43.0",
        JVal.s "", JVal.b false, JVal.null, [("attr", JVal.s "pkgs.git")]⟩]) "git").1 =
    some [⟨JVal.s "git", JVal.s "nixpkgs", JVal.s "git", JVal.s "2.43.0",
      JVal.s "", JVal.b false, JVal.null, [("attr", JVal.s "pkgs.git")]⟩] ∧
    (SearchCache.get 100 (SearchCache.set 0 (Store.ok []) "nohit" []) "nohit").1 =
      some [] :=
  ⟨cache_roundtrip_of_truthy_id 0 100 (Store.ok []) "git" _ (by decide) (by decide),
   cache_roundtrip_of_truthy_id 0 100 (Store.ok []) "nohit" [] (by decide)
     (by intro p hp; simp at hp)⟩
